import Mathlib

/-!
Verification of the lineman whitespace normalizer (src/main.rs).

Strings are modelled as `List Char`.  The per-line transform, the line
splitter, the file-cleaning routine and the main walk loop are shallowly
embedded below, each definition annotated with the source lines it embeds.
File-system effects (read, create/truncate, per-chunk writes) are modelled
by explicit parameters: the outcome of the read, whether create succeeds,
and which write (by index) fails first.
-/

namespace Lineman

/-- Unicode white-space test, the semantics of Rust's char::is_whitespace
used by str::trim_end at line 106 of src/main.rs. -/
def rustIsWhitespace (c : Char) : Bool :=
  let n := c.toNat
  n == 0x9 || n == 0xA || n == 0xB || n == 0xC || n == 0xD || n == 0x20 ||
  n == 0x85 || n == 0xA0 || n == 0x1680 ||
  (decide (0x2000 ≤ n) && decide (n ≤ 0x200A)) ||
  n == 0x2028 || n == 0x2029 || n == 0x202F || n == 0x205F || n == 0x3000

/-- Embeds str::trim_end (line 106): remove the maximal trailing run of
white-space characters. -/
def trim_end (s : List Char) : List Char :=
  (s.reverse.dropWhile rustIsWhitespace).reverse

/-- Embeds line.ends_with of a newline (line 105). -/
def ends_with_newline (s : List Char) : Bool :=
  s.getLast? == some '\n'

/-- Embeds the expression line.trim_end().is_empty() of line 115. -/
def is_blank (line : List Char) : Bool :=
  (trim_end line).isEmpty

/-- Embeds the per-line closure of clean_lines (lines 104-113): trim the
segment; re-append one newline when the flag is set or the segment
originally ended with a newline. -/
def clean_line (normalize_eof_newlines : Bool) (line : List Char) : List Char :=
  let line_has_newline := ends_with_newline line
  let trimmed_line := trim_end line
  if normalize_eof_newlines || line_has_newline then trimmed_line ++ ['\n']
  else trimmed_line

/-- Embeds clean_lines (lines 101-120): map the per-line transform, then,
via rev/skip_while/rev, drop trailing cleaned segments that are blank
whenever the flag is set. -/
def clean_lines (lines : List (List Char)) (normalize_eof_newlines : Bool) :
    List (List Char) :=
  (((lines.map (clean_line normalize_eof_newlines)).reverse).dropWhile
    (fun line => normalize_eof_newlines && is_blank line)).reverse

/-- Embeds str::split_inclusive at a newline (line 88): segments keep their
terminating newline; a final unterminated remainder forms a last segment;
the empty string yields no segments. -/
def split_inclusive : List Char → List (List Char)
  | [] => []
  | c :: rest =>
    if c = '\n' then ['\n'] :: split_inclusive rest
    else
      match split_inclusive rest with
      | [] => [[c]]
      | seg :: segs => (c :: seg) :: segs

/-- Total bytes produced for a file whose content is s: the concatenation
of the cleaned lines written one by one at lines 91-96. -/
def cleaned_content (s : List Char) (normalize_eof_newlines : Bool) : List Char :=
  (clean_lines (split_inclusive s) normalize_eof_newlines).flatten

/-- Embeds the LinemanFileError enum (lines 29-32). -/
inductive LinemanFileError
  | FileNotOpened
  | FileNotCleaned
deriving DecidableEq

/-- Observable effect of one clean_file call: the error produced (if any),
whether File::create truncated the file, and the chunks actually written. -/
structure FileEffect where
  err : Option LinemanFileError
  truncated : Bool
  written : List (List Char)
deriving DecidableEq

/-- Embeds clean_file (lines 86-99).  read_result is the outcome of
fs::read_to_string; create_ok tells whether File::create succeeds;
write_fails i tells whether the i-th write_all call fails.  The loop writes
the cleaned chunks in order and stops at the first failing write. -/
def clean_file (read_result : Option (List Char)) (create_ok : Bool)
    (write_fails : Nat → Bool) (normalize_eof_newlines : Bool) : FileEffect :=
  match read_result with
  | none =>
    { err := some LinemanFileError.FileNotOpened, truncated := false, written := [] }
  | some s =>
    if create_ok = false then
      { err := some LinemanFileError.FileNotCleaned, truncated := false, written := [] }
    else
      let chunks := clean_lines (split_inclusive s) normalize_eof_newlines
      match (List.range chunks.length).find? write_fails with
      | some i =>
        { err := some LinemanFileError.FileNotCleaned, truncated := true,
          written := chunks.take i }
      | none => { err := none, truncated := true, written := chunks }

/-- Embeds the LinemanApplicationError enum (lines 24-27). -/
inductive LinemanApplicationError
  | InvalidRootPath (msg : String)
deriving DecidableEq

/-- The three report buckets built by main (lines 35-37). -/
structure Report where
  cleaned_file_paths : List (List Char)
  skipped_file_paths : List (List Char)
  walk_dir_errors : Nat
deriving DecidableEq

/-- One result of the WalkDir iteration (lines 50-78): either a directory
entry (with the file-system behaviour the entry will exhibit when cleaned)
or a traversal error. -/
inductive WalkItem
  | entry (is_file : Bool) (name : List Char) (read_result : Option (List Char))
      (create_ok : Bool) (write_fails : Nat → Bool)
  | walkDirError

/-- Embeds std Path::extension for a final path component: the part after
the last dot, provided a dot occurs past the first character. -/
def extension (name : List Char) : Option (List Char) :=
  match name with
  | [] => none
  | _ :: rest =>
    if rest.contains '.' then some ((rest.reverse.takeWhile (fun c => c != '.')).reverse)
    else none

/-- Embeds the membership test of lines 60-63: raw, case-sensitive equality
between the path's extension and a configured extension. -/
def file_is_in_extension_vector (extensions : List (List Char)) (ext : List Char) : Bool :=
  extensions.any (fun e => e == ext)

/-- The condition under which main hands a directory entry to clean_file
(lines 55-65): it is a regular file and its extension matches. -/
def cleaner_invoked (extensions : List (List Char)) (is_file : Bool)
    (name : List Char) : Bool :=
  is_file &&
    (match extension name with
     | some ext => file_is_in_extension_vector extensions ext
     | none => false)

/-- Embeds one iteration of the walk loop (lines 50-79): bucket the entry
according to the clean_file outcome, or count a traversal error. -/
def process_item (extensions : List (List Char)) (normalize_eof_newlines : Bool)
    (acc : Report) (item : WalkItem) : Report :=
  match item with
  | WalkItem.walkDirError =>
    { acc with walk_dir_errors := acc.walk_dir_errors + 1 }
  | WalkItem.entry is_file name read_result create_ok write_fails =>
    if cleaner_invoked extensions is_file name then
      match (clean_file read_result create_ok write_fails normalize_eof_newlines).err with
      | none =>
        { acc with cleaned_file_paths := acc.cleaned_file_paths ++ [name] }
      | some _ =>
        { acc with skipped_file_paths := acc.skipped_file_paths ++ [name] }
    else acc

/-- Embeds main (lines 34-84): fail fast when the root is not a directory,
otherwise fold the walk over the report accumulator and exit successfully. -/
def main (root_is_dir : Bool) (extensions : List (List Char))
    (disable_eof_newline_normalization : Bool) (items : List WalkItem) :
    Except LinemanApplicationError Report :=
  if root_is_dir = false then
    Except.error
      (LinemanApplicationError.InvalidRootPath ("The provided path is not a valid directory"))
  else
    Except.ok (items.foldl
      (process_item extensions (!disable_eof_newline_normalization))
      { cleaned_file_paths := [], skipped_file_paths := [], walk_dir_errors := 0 })

/-- Specification-side trim that removes only trailing spaces and tabs,
following the wording of the spec for claim C1. -/
def spec_trim_spaces_tabs (s : List Char) : List Char :=
  (s.reverse.dropWhile (fun c => c == ' ' || c == '\t')).reverse

/-- Specification-side: the segment without its final newline, if any. -/
def strip_final_newline (s : List Char) : List Char :=
  if ends_with_newline s then s.dropLast else s

/-- Specification-side: number of trailing blank segments of a list. -/
def trailing_blank_count (ls : List (List Char)) : Nat :=
  (ls.reverse.takeWhile is_blank).length

/-- Specification-side: whether a walk item is a traversal error. -/
def is_walk_error : WalkItem → Bool
  | WalkItem.walkDirError => true
  | WalkItem.entry _ _ _ _ _ => false

/-- Specification-side: whether a walk item is an entry that main hands to
clean_file. -/
def is_invoked (extensions : List (List Char)) : WalkItem → Bool
  | WalkItem.entry is_file name _ _ _ => cleaner_invoked extensions is_file name
  | WalkItem.walkDirError => false

/-! Generic list helpers. -/

theorem mem_dropWhile_imp {α : Type} {p : α → Bool} {l : List α} {x : α}
    (h : x ∈ l.dropWhile p) : x ∈ l := by
  induction l with
  | nil => simp [List.dropWhile] at h
  | cons a t ih =>
    rw [List.dropWhile_cons] at h
    by_cases hp : p a = true
    · rw [if_pos hp] at h
      exact List.mem_cons_of_mem a (ih h)
    · rw [if_neg hp] at h
      exact h

theorem head?_dropWhile_not {α : Type} (p : α → Bool) (l : List α) (x : α)
    (h : (l.dropWhile p).head? = some x) : p x = false := by
  induction l with
  | nil => simp [List.dropWhile] at h
  | cons a t ih =>
    rw [List.dropWhile_cons] at h
    by_cases hp : p a = true
    · rw [if_pos hp] at h
      exact ih h
    · rw [if_neg hp] at h
      simp only [List.head?_cons, Option.some.injEq] at h
      subst h
      exact Bool.not_eq_true _ |>.mp hp

theorem dropWhile_always_false {α : Type} (l : List α) :
    l.dropWhile (fun _ => false) = l := by
  cases l with
  | nil => rfl
  | cons a t => simp [List.dropWhile_cons]

theorem getLast?_reverse' {α : Type} (l : List α) : l.reverse.getLast? = l.head? := by
  cases l with
  | nil => rfl
  | cons a t => rw [List.reverse_cons, List.getLast?_concat]; rfl

theorem getLast?_some_decomp {α : Type} (l : List α) (c : α) (h : l.getLast? = some c) :
    l = l.dropLast ++ [c] := by
  rcases List.eq_nil_or_concat l with h' | ⟨u, a, h'⟩
  · subst h'; simp at h
  · rw [List.concat_eq_append] at h'
    subst h'
    rw [List.getLast?_concat] at h
    obtain rfl : a = c := by injection h
    rw [List.dropLast_concat]

theorem map_self {α : Type} (f : α → α) (l : List α) (h : ∀ x ∈ l, f x = x) :
    l.map f = l := by
  have : l.map f = l.map id := List.map_congr_left h
  rw [this, List.map_id]

theorem takeWhile_length_congr {α β : Type} (p : α → Bool) (q : β → Bool) :
    ∀ (l : List α) (m : List β), l.map p = m.map q →
      (l.takeWhile p).length = (m.takeWhile q).length := by
  intro l
  induction l with
  | nil =>
    intro m h
    cases m with
    | nil => rfl
    | cons b t => simp at h
  | cons a t ih =>
    intro m h
    cases m with
    | nil => simp at h
    | cons b u =>
      simp only [List.map_cons, List.cons.injEq] at h
      rw [List.takeWhile_cons, List.takeWhile_cons]
      by_cases hp : p a = true
      · rw [if_pos hp, if_pos (by rw [← h.1]; exact hp)]
        simp [ih u h.2]
      · rw [if_neg hp, if_neg (by rw [← h.1]; exact hp)]
        rfl

/-! Lemmas about trim_end. -/

theorem trim_end_decomp (s : List Char) :
    ∃ w, s = trim_end s ++ w ∧ ∀ c ∈ w, rustIsWhitespace c = true := by
  refine ⟨(s.reverse.takeWhile rustIsWhitespace).reverse, ?_, ?_⟩
  · conv_lhs => rw [← s.reverse_reverse]
    conv_lhs =>
      rw [← List.takeWhile_append_dropWhile rustIsWhitespace s.reverse]
    rw [List.reverse_append]
    rfl
  · intro c hc
    rw [List.mem_reverse] at hc
    exact List.mem_takeWhile_imp hc

theorem mem_trim_end_imp {s : List Char} {c : Char} (h : c ∈ trim_end s) : c ∈ s := by
  obtain ⟨w, hw, _⟩ := trim_end_decomp s
  rw [hw]
  exact List.mem_append_left w h

theorem trim_end_getLast (s : List Char) :
    ∀ c, (trim_end s).getLast? = some c → rustIsWhitespace c = false := by
  intro c h
  unfold trim_end at h
  rw [getLast?_reverse'] at h
  exact head?_dropWhile_not _ _ _ h

theorem trim_end_append_ws (t : List Char) (c : Char) (hc : rustIsWhitespace c = true) :
    trim_end (t ++ [c]) = trim_end t := by
  unfold trim_end
  rw [List.reverse_append]
  simp only [List.reverse_cons, List.reverse_nil, List.nil_append, List.cons_append,
    List.singleton_append]
  rw [List.dropWhile_cons, if_pos hc]

theorem trim_end_eq_self (s : List Char)
    (h : ∀ c, s.getLast? = some c → rustIsWhitespace c = false) : trim_end s = s := by
  rcases List.eq_nil_or_concat s with hs | ⟨u, a, hs⟩
  · subst hs; rfl
  · rw [List.concat_eq_append] at hs
    subst hs
    have ha := h a (List.getLast?_concat u)
    unfold trim_end
    rw [List.reverse_append]
    simp only [List.reverse_cons, List.reverse_nil, List.nil_append, List.singleton_append]
    rw [List.dropWhile_cons, if_neg (by simp [ha])]
    rw [List.reverse_cons, List.reverse_reverse]

theorem trim_end_idem (s : List Char) : trim_end (trim_end s) = trim_end s :=
  trim_end_eq_self (trim_end s) (trim_end_getLast s)

theorem trim_end_fixed_getLast (t : List Char) (ht : trim_end t = t) :
    ∀ c, t.getLast? = some c → rustIsWhitespace c = false := by
  intro c h
  rw [← ht] at h
  exact trim_end_getLast t c h

theorem newline_whitespace : rustIsWhitespace '\n' = true := by decide

theorem ends_with_newline_append (t : List Char) :
    ends_with_newline (t ++ ['\n']) = true := by
  unfold ends_with_newline
  rw [List.getLast?_concat]
  rfl

theorem ends_with_newline_false_of_trim_fixed (t : List Char) (ht : trim_end t = t) :
    ends_with_newline t = false := by
  unfold ends_with_newline
  cases hl : t.getLast? with
  | none => rfl
  | some c =>
    have hc := trim_end_fixed_getLast t ht c hl
    have hcn : c ≠ '\n' := by
      intro h'
      rw [h', newline_whitespace] at hc
      exact Bool.noConfusion hc
    simp [hcn]

/-! Lemmas about clean_line. -/

theorem clean_line_true_eq (line : List Char) :
    clean_line true line = trim_end line ++ ['\n'] := by
  simp [clean_line]

theorem clean_line_newline_eq (flag : Bool) (line : List Char)
    (h : ends_with_newline line = true) :
    clean_line flag line = trim_end line ++ ['\n'] := by
  simp [clean_line, h]

theorem clean_line_false_no_newline (line : List Char)
    (h : ends_with_newline line = false) :
    clean_line false line = trim_end line := by
  simp [clean_line, h]

theorem clean_line_append_newline (flag : Bool) (t : List Char) (ht : trim_end t = t) :
    clean_line flag (t ++ ['\n']) = t ++ ['\n'] := by
  rw [clean_line_newline_eq flag _ (ends_with_newline_append t)]
  rw [trim_end_append_ws t '\n' newline_whitespace, ht]

theorem clean_line_false_fixed (t : List Char) (ht : trim_end t = t) :
    clean_line false t = t := by
  rw [clean_line_false_no_newline t (ends_with_newline_false_of_trim_fixed t ht), ht]

theorem is_blank_clean_line (flag : Bool) (line : List Char) :
    is_blank (clean_line flag line) = is_blank line := by
  unfold clean_line is_blank
  by_cases h : (flag || ends_with_newline line) = true
  · rw [if_pos h, trim_end_append_ws _ '\n' newline_whitespace, trim_end_idem]
  · rw [if_neg h, trim_end_idem]

/-! Structural lemmas about split_inclusive. -/

theorem split_inclusive_cons_newline (rest : List Char) :
    split_inclusive ('\n' :: rest) = ['\n'] :: split_inclusive rest := by
  simp [split_inclusive]

theorem split_inclusive_cons_other (c : Char) (rest : List Char) (hc : c ≠ '\n') :
    split_inclusive (c :: rest) =
      match split_inclusive rest with
      | [] => [[c]]
      | seg :: segs => (c :: seg) :: segs := by
  simp [split_inclusive, hc]

theorem split_inclusive_ne_nil (s : List Char) (hs : s ≠ []) : split_inclusive s ≠ [] := by
  cases s with
  | nil => exact absurd rfl hs
  | cons c rest =>
    simp only [split_inclusive]
    by_cases hc : c = '\n'
    · rw [if_pos hc]; simp
    · rw [if_neg hc]
      cases split_inclusive rest with
      | nil => simp
      | cons seg segs => simp

theorem flatten_split_inclusive (s : List Char) : (split_inclusive s).flatten = s := by
  induction s with
  | nil => rfl
  | cons c rest ih =>
    by_cases hc : c = '\n'
    · subst hc
      rw [split_inclusive_cons_newline, List.flatten_cons, List.singleton_append, ih]
    · rw [split_inclusive_cons_other c rest hc]
      cases h : split_inclusive rest with
      | nil =>
        have : rest = [] := by
          by_contra hne
          exact split_inclusive_ne_nil rest hne h
        subst this
        simp
      | cons seg segs =>
        have hflat : seg ++ segs.flatten = rest := by
          have := ih
          rw [h, List.flatten_cons] at this
          exact this
        simp only [List.flatten_cons, List.cons_append]
        rw [hflat]

theorem split_inclusive_good (s : List Char) :
    ∀ seg ∈ split_inclusive s, seg ≠ [] ∧ '\n' ∉ seg.dropLast := by
  induction s with
  | nil => intro seg h; simp [split_inclusive] at h
  | cons c rest ih =>
    intro seg hseg
    by_cases hc : c = '\n'
    · subst hc
      simp only [split_inclusive, if_pos rfl] at hseg
      rcases List.mem_cons.mp hseg with h | h
      · subst h
        exact ⟨by simp, by simp⟩
      · exact ih seg h
    · simp only [split_inclusive, if_neg hc] at hseg
      cases hsp : split_inclusive rest with
      | nil =>
        rw [hsp] at hseg
        simp only [List.mem_singleton] at hseg
        subst hseg
        exact ⟨by simp, by simp⟩
      | cons s0 segs =>
        rw [hsp] at hseg
        rcases List.mem_cons.mp hseg with h | h
        · subst h
          have h0 := ih s0 (by rw [hsp]; exact List.mem_cons_self _ _)
          refine ⟨by simp, ?_⟩
          rcases List.eq_nil_or_concat s0 with h' | ⟨u, a, h'⟩
          · exact absurd h' h0.1
          · rw [List.concat_eq_append] at h'
            subst h'
            rw [← List.cons_append, List.dropLast_concat]
            have hu : '\n' ∉ u := by
              have := h0.2
              rwa [List.dropLast_concat] at this
            intro hm
            rcases List.mem_cons.mp hm with h1 | h1
            · exact hc h1.symm
            · exact hu h1
        · exact ih seg (by rw [hsp]; exact List.mem_cons_of_mem _ h)

/-- A list of segments in which every segment but the last ends with a
newline, and no segment carries a newline before its final character. -/
def seglist : List (List Char) → Prop
  | [] => True
  | [y] => '\n' ∉ y.dropLast
  | x :: y :: rest => ('\n' ∉ x.dropLast ∧ x.getLast? = some '\n') ∧ seglist (y :: rest)

theorem split_inclusive_seglist (s : List Char) : seglist (split_inclusive s) := by
  induction s with
  | nil => trivial
  | cons c rest ih =>
    by_cases hc : c = '\n'
    · subst hc
      simp only [split_inclusive, if_pos rfl]
      cases hsp : split_inclusive rest with
      | nil => simp [seglist]
      | cons s0 segs =>
        rw [hsp] at ih
        exact ⟨⟨by simp, rfl⟩, ih⟩
    · simp only [split_inclusive, if_neg hc]
      cases hsp : split_inclusive rest with
      | nil => simp [seglist]
      | cons s0 segs =>
        rw [hsp] at ih
        have hgood := split_inclusive_good rest s0 (by rw [hsp]; exact List.mem_cons_self _ _)
        rcases List.eq_nil_or_concat s0 with h' | ⟨u, a, h'⟩
        · exact absurd h' hgood.1
        · rw [List.concat_eq_append] at h'
          subst h'
          have hu : '\n' ∉ u := by
            have := hgood.2
            rwa [List.dropLast_concat] at this
          cases segs with
          | nil =>
            show '\n' ∉ (c :: (u ++ [a])).dropLast
            rw [← List.cons_append, List.dropLast_concat]
            intro hm
            rcases List.mem_cons.mp hm with h1 | h1
            · exact hc h1.symm
            · exact hu h1
          | cons s1 segs' =>
            obtain ⟨⟨hdl, hlast⟩, hrest⟩ := ih
            refine ⟨⟨?_, ?_⟩, hrest⟩
            · rw [← List.cons_append, List.dropLast_concat]
              intro hm
              rcases List.mem_cons.mp hm with h1 | h1
              · exact hc h1.symm
              · exact hu h1
            · rw [List.getLast?_concat] at hlast
              rw [← List.cons_append, List.getLast?_concat]
              exact hlast

theorem split_inclusive_append_newline (t u : List Char) (ht : '\n' ∉ t) :
    split_inclusive (t ++ '\n' :: u) = (t ++ ['\n']) :: split_inclusive u := by
  induction t with
  | nil => simp [split_inclusive]
  | cons c t' ih =>
    have hc : c ≠ '\n' := fun h => ht (h ▸ List.mem_cons_self c t')
    have ht' : '\n' ∉ t' := fun h => ht (List.mem_cons_of_mem _ h)
    show split_inclusive (c :: (t' ++ '\n' :: u)) = ((c :: t') ++ ['\n']) :: split_inclusive u
    rw [split_inclusive_cons_other c _ hc, ih ht']
    rfl

theorem split_inclusive_no_newline (t : List Char) (hne : t ≠ []) (ht : '\n' ∉ t) :
    split_inclusive t = [t] := by
  induction t with
  | nil => exact absurd rfl hne
  | cons c t' ih =>
    have hc : c ≠ '\n' := fun h => ht (h ▸ List.mem_cons_self c t')
    have ht' : '\n' ∉ t' := fun h => ht (List.mem_cons_of_mem _ h)
    simp only [split_inclusive, if_neg hc]
    cases ht'' : t' with
    | nil => rfl
    | cons d t'' =>
      rw [← ht'']
      rw [ih (by rw [ht'']; simp) ht']

theorem split_inclusive_flatten_eq (L : List (List Char)) :
    seglist L → (∀ x ∈ L, x ≠ []) → split_inclusive L.flatten = L := by
  induction L with
  | nil => intro _ _; rfl
  | cons x rest ih =>
    intro hseg hne
    cases rest with
    | nil =>
      have hx : x ≠ [] := hne x (List.mem_cons_self _ _)
      have hdl : '\n' ∉ x.dropLast := hseg
      rcases List.eq_nil_or_concat x with h | ⟨u, a, h⟩
      · exact absurd h hx
      · rw [List.concat_eq_append] at h
        subst h
        rw [List.dropLast_concat] at hdl
        simp only [List.flatten_cons, List.flatten_nil, List.append_nil]
        by_cases ha : a = '\n'
        · subst ha
          have := split_inclusive_append_newline u [] hdl
          simpa using this
        · refine split_inclusive_no_newline _ hx ?_
          intro hm
          rcases List.mem_append.mp hm with h1 | h1
          · exact hdl h1
          · rw [List.mem_singleton] at h1
            exact ha h1.symm
    | cons y rest' =>
      obtain ⟨⟨hdl, hlast⟩, hseg'⟩ := hseg
      have hx := getLast?_some_decomp x '\n' hlast
      rw [List.flatten_cons]
      conv_lhs => rw [hx]
      rw [List.append_assoc]
      have hsingle : (['\n'] : List Char) ++ (y :: rest').flatten = '\n' :: (y :: rest').flatten := rfl
      rw [hsingle, split_inclusive_append_newline _ _ hdl]
      rw [ih hseg' (fun z hz => hne z (List.mem_cons_of_mem _ hz)), ← hx]

/-! Lemmas about clean_lines. -/

theorem clean_lines_false (lines : List (List Char)) :
    clean_lines lines false = lines.map (clean_line false) := by
  unfold clean_lines
  simp only [Bool.false_and]
  rw [dropWhile_always_false, List.reverse_reverse]

theorem clean_lines_mem (lines : List (List Char)) (flag : Bool) (x : List Char)
    (hx : x ∈ clean_lines lines flag) :
    ∃ line, line ∈ lines ∧ x = clean_line flag line := by
  unfold clean_lines at hx
  rw [List.mem_reverse] at hx
  have hx' := mem_dropWhile_imp hx
  rw [List.mem_reverse] at hx'
  obtain ⟨line, hline, heq⟩ := List.mem_map.mp hx'
  exact ⟨line, hline, heq.symm⟩

theorem clean_lines_decomp (lines : List (List Char)) (flag : Bool) :
    ∃ dropped, lines.map (clean_line flag) = clean_lines lines flag ++ dropped ∧
      ∀ x ∈ dropped, (flag && is_blank x) = true := by
  refine ⟨((lines.map (clean_line flag)).reverse.takeWhile
    (fun line => flag && is_blank line)).reverse, ?_, ?_⟩
  · unfold clean_lines
    conv_lhs => rw [← List.reverse_reverse (lines.map (clean_line flag))]
    conv_lhs =>
      rw [← List.takeWhile_append_dropWhile
        (fun line => flag && is_blank line) (lines.map (clean_line flag)).reverse]
    rw [List.reverse_append]
  · intro x hx
    rw [List.mem_reverse] at hx
    have h2 := List.mem_takeWhile_imp hx
    exact h2

theorem clean_lines_getLast (lines : List (List Char)) (flag : Bool) (x : List Char)
    (h : (clean_lines lines flag).getLast? = some x) : (flag && is_blank x) = false := by
  unfold clean_lines at h
  rw [getLast?_reverse'] at h
  have h2 := head?_dropWhile_not _ _ _ h
  exact h2

theorem clean_lines_fixed (L : List (List Char)) (flag : Bool)
    (hfix : ∀ x ∈ L, clean_line flag x = x)
    (hlast : ∀ x, L.getLast? = some x → (flag && is_blank x) = false) :
    clean_lines L flag = L := by
  unfold clean_lines
  rw [map_self _ _ hfix]
  cases hL : L.reverse with
  | nil =>
    have : L = [] := List.reverse_eq_nil_iff.mp hL
    subst this
    rfl
  | cons a r =>
    have ha : L.getLast? = some a := by
      conv_lhs => rw [← L.reverse_reverse, hL]
      rw [List.reverse_cons, List.getLast?_concat]
    have hpa := hlast a ha
    rw [List.dropWhile_cons, if_neg (by simp [hpa]), ← hL, List.reverse_reverse]

/-- Trimming a well-formed segment (newline at most as its final character)
yields a newline-free, trim-fixed core. -/
theorem good_seg_trim (seg : List Char) (hne : seg ≠ []) (hdl : '\n' ∉ seg.dropLast) :
    '\n' ∉ trim_end seg ∧ trim_end (trim_end seg) = trim_end seg := by
  refine ⟨?_, trim_end_idem seg⟩
  rcases List.eq_nil_or_concat seg with h | ⟨u, a, h⟩
  · exact absurd h hne
  · rw [List.concat_eq_append] at h
    subst h
    rw [List.dropLast_concat] at hdl
    by_cases ha : rustIsWhitespace a = true
    · rw [trim_end_append_ws u a ha]
      intro hm
      exact hdl (mem_trim_end_imp hm)
    · have hfix : trim_end (u ++ [a]) = u ++ [a] := by
        apply trim_end_eq_self
        intro c hc
        rw [List.getLast?_concat] at hc
        obtain rfl : a = c := by injection hc
        exact Bool.not_eq_true _ |>.mp ha
      rw [hfix]
      intro hm
      rcases List.mem_append.mp hm with h1 | h1
      · exact hdl h1
      · rw [List.mem_singleton] at h1
        rw [← h1, newline_whitespace] at ha
        exact ha rfl

/-! Shape of the cleaned output, leading to byte-level idempotence. -/

theorem mem_dropLast_imp {α : Type} {l : List α} {x : α} (h : x ∈ l.dropLast) : x ∈ l := by
  rcases List.eq_nil_or_concat l with h' | ⟨u, a, h'⟩
  · subst h'; simp at h
  · rw [List.concat_eq_append] at h'
    subst h'
    rw [List.dropLast_concat] at h
    exact List.mem_append_left _ h

theorem clean_output_elem_true (s : List Char) (x : List Char)
    (hx : x ∈ clean_lines (split_inclusive s) true) :
    ∃ t, x = t ++ ['\n'] ∧ '\n' ∉ t ∧ trim_end t = t := by
  obtain ⟨line, hline, rfl⟩ := clean_lines_mem _ _ _ hx
  have hg := split_inclusive_good s line hline
  have ht := good_seg_trim line hg.1 hg.2
  exact ⟨trim_end line, clean_line_true_eq line, ht.1, ht.2⟩

theorem seglist_of_forall_newline (L : List (List Char)) :
    (∀ x ∈ L, ∃ t, x = t ++ ['\n'] ∧ '\n' ∉ t) → seglist L := by
  induction L with
  | nil => intro _; trivial
  | cons x rest ih =>
    intro h
    obtain ⟨t, hx, hnt⟩ := h x (List.mem_cons_self _ _)
    cases rest with
    | nil =>
      show '\n' ∉ x.dropLast
      rw [hx, List.dropLast_concat]
      exact hnt
    | cons y rest' =>
      refine ⟨⟨?_, ?_⟩, ?_⟩
      · rw [hx, List.dropLast_concat]
        exact hnt
      · rw [hx, List.getLast?_concat]
      · exact ih (fun z hz => h z (List.mem_cons_of_mem _ hz))

theorem seglist_append_last (K : List (List Char)) (y : List Char)
    (hK : ∀ x ∈ K, ∃ t, x = t ++ ['\n'] ∧ '\n' ∉ t) (hy : '\n' ∉ y.dropLast) :
    seglist (K ++ [y]) := by
  induction K with
  | nil => exact hy
  | cons x K' ih =>
    obtain ⟨t, hx, hnt⟩ := hK x (List.mem_cons_self _ _)
    have ihK : seglist (K' ++ [y]) := ih (fun u hu => hK u (List.mem_cons_of_mem _ hu))
    cases hK' : K' ++ [y] with
    | nil => simp at hK'
    | cons z zs =>
      show seglist (x :: (K' ++ [y]))
      rw [hK']
      rw [hK'] at ihK
      refine ⟨⟨?_, ?_⟩, ihK⟩
      · rw [hx, List.dropLast_concat]
        exact hnt
      · rw [hx, List.getLast?_concat]

theorem clean_map_false_shape (segs : List (List Char)) :
    seglist segs → (∀ x ∈ segs, x ≠ [] ∧ '\n' ∉ x.dropLast) →
    (∀ x ∈ (segs.map (clean_line false)).dropLast,
        ∃ t, x = t ++ ['\n'] ∧ '\n' ∉ t ∧ trim_end t = t) ∧
    (∀ y, (segs.map (clean_line false)).getLast? = some y →
        (∃ t, y = t ++ ['\n'] ∧ '\n' ∉ t ∧ trim_end t = t) ∨
        ('\n' ∉ y ∧ trim_end y = y)) := by
  induction segs with
  | nil => exact fun _ _ => ⟨fun x hx => by simp at hx, fun y hy => by simp at hy⟩
  | cons x tail ih =>
    intro hseg hgood
    have hx := hgood x (List.mem_cons_self _ _)
    have htr := good_seg_trim x hx.1 hx.2
    cases tail with
    | nil =>
      refine ⟨fun z hz => by simp at hz, fun y hy => ?_⟩
      simp only [List.map_cons, List.map_nil, List.getLast?_singleton,
        Option.some.injEq] at hy
      subst hy
      cases hnl : ends_with_newline x with
      | true =>
        left
        exact ⟨trim_end x, clean_line_newline_eq false x hnl, htr.1, htr.2⟩
      | false =>
        right
        rw [clean_line_false_no_newline x hnl]
        exact ⟨htr.1, htr.2⟩
    | cons y tail' =>
      obtain ⟨⟨hdl, hlast⟩, hseg'⟩ := hseg
      have ihr := ih hseg' (fun z hz => hgood z (List.mem_cons_of_mem _ hz))
      have hnl : ends_with_newline x = true := by
        unfold ends_with_newline
        rw [hlast]
        rfl
      have hcx : clean_line false x = trim_end x ++ ['\n'] := clean_line_newline_eq false x hnl
      constructor
      · intro z hz
        simp only [List.map_cons] at hz
        rw [List.dropLast_cons₂] at hz
        rcases List.mem_cons.mp hz with h1 | h1
        · subst h1
          exact ⟨trim_end x, hcx, htr.1, htr.2⟩
        · have h2 := ihr.1 z
          simp only [List.map_cons] at h2
          exact h2 h1
      · intro z hz
        simp only [List.map_cons, List.getLast?_cons_cons] at hz
        have h2 := ihr.2 z
        simp only [List.map_cons] at h2
        exact h2 hz

/-- Master lemma: re-splitting the cleaned bytes produces a list of lines
each of which clean_line leaves unchanged, clean_lines leaves unchanged as
a whole, and whose concatenation is the cleaned bytes again. -/
theorem cleaned_content_resplit (s : List Char) (flag : Bool) :
    ∃ L', split_inclusive (cleaned_content s flag) = L' ∧
      (∀ x ∈ L', clean_line flag x = x) ∧
      clean_lines L' flag = L' ∧
      L'.flatten = cleaned_content s flag := by
  cases flag with
  | true =>
    have helem := clean_output_elem_true s
    have hfix : ∀ x ∈ clean_lines (split_inclusive s) true, clean_line true x = x := by
      intro x hx
      obtain ⟨t, rfl, hnt, hft⟩ := helem x hx
      exact clean_line_append_newline true t hft
    have hseg : seglist (clean_lines (split_inclusive s) true) :=
      seglist_of_forall_newline _
        (fun x hx => (helem x hx).elim fun t ht => ⟨t, ht.1, ht.2.1⟩)
    have hne : ∀ x ∈ clean_lines (split_inclusive s) true, x ≠ [] := by
      intro x hx
      obtain ⟨t, rfl, _, _⟩ := helem x hx
      simp
    refine ⟨clean_lines (split_inclusive s) true, ?_, hfix, ?_, rfl⟩
    · exact split_inclusive_flatten_eq _ hseg hne
    · exact clean_lines_fixed _ true hfix
        (fun x hx => clean_lines_getLast (split_inclusive s) true x hx)
  | false =>
    have hshape := clean_map_false_shape (split_inclusive s)
      (split_inclusive_seglist s) (split_inclusive_good s)
    have hcc : cleaned_content s false =
        ((split_inclusive s).map (clean_line false)).flatten := by
      unfold cleaned_content
      rw [clean_lines_false]
    rcases List.eq_nil_or_concat ((split_inclusive s).map (clean_line false)) with
      hM | ⟨K, y, hM⟩
    · refine ⟨[], ?_, ?_, rfl, ?_⟩
      · rw [hcc, hM]
        rfl
      · intro x hx
        simp at hx
      · rw [hcc, hM]
    · rw [List.concat_eq_append] at hM
      have hdrop : ((split_inclusive s).map (clean_line false)).dropLast = K := by
        rw [hM, List.dropLast_concat]
      have hlast : ((split_inclusive s).map (clean_line false)).getLast? = some y := by
        rw [hM, List.getLast?_concat]
      have hK : ∀ x ∈ K, ∃ t, x = t ++ ['\n'] ∧ '\n' ∉ t ∧ trim_end t = t := by
        intro x hx
        exact hshape.1 x (by rw [hdrop]; exact hx)
      have hKfix : ∀ x ∈ K, clean_line false x = x := by
        intro x hx
        obtain ⟨t, rfl, hnt, hft⟩ := hK x hx
        exact clean_line_append_newline false t hft
      rcases hshape.2 y hlast with ⟨t, hyt, hnt, hft⟩ | ⟨hny, hfy⟩
      · have hall : ∀ x ∈ K ++ [y], ∃ u, x = u ++ ['\n'] ∧ '\n' ∉ u ∧ trim_end u = u := by
          intro x hx
          rcases List.mem_append.mp hx with h1 | h1
          · exact hK x h1
          · rw [List.mem_singleton] at h1
            subst h1
            exact ⟨t, hyt, hnt, hft⟩
        have hfix : ∀ x ∈ K ++ [y], clean_line false x = x := by
          intro x hx
          obtain ⟨u, rfl, hnu, hfu⟩ := hall x hx
          exact clean_line_append_newline false u hfu
        have hseg : seglist (K ++ [y]) :=
          seglist_of_forall_newline _
            (fun x hx => (hall x hx).elim fun u hu => ⟨u, hu.1, hu.2.1⟩)
        have hne : ∀ x ∈ K ++ [y], x ≠ [] := by
          intro x hx
          obtain ⟨u, rfl, _, _⟩ := hall x hx
          simp
        refine ⟨K ++ [y], ?_, hfix, ?_, ?_⟩
        · rw [hcc, hM]
          exact split_inclusive_flatten_eq _ hseg hne
        · rw [clean_lines_false, map_self _ _ hfix]
        · rw [hcc, hM]
      · by_cases hy0 : y = []
        · subst hy0
          have hseg : seglist K :=
            seglist_of_forall_newline _
              (fun x hx => (hK x hx).elim fun u hu => ⟨u, hu.1, hu.2.1⟩)
          have hne : ∀ x ∈ K, x ≠ [] := by
            intro x hx
            obtain ⟨u, rfl, _, _⟩ := hK x hx
            simp
          refine ⟨K, ?_, hKfix, ?_, ?_⟩
          · rw [hcc, hM, List.flatten_append]
            simp only [List.flatten_cons, List.flatten_nil, List.append_nil]
            exact split_inclusive_flatten_eq _ hseg hne
          · rw [clean_lines_false, map_self _ _ hKfix]
          · rw [hcc, hM, List.flatten_append]
            simp
        · have hfixy : clean_line false y = y := clean_line_false_fixed y hfy
          have hfix : ∀ x ∈ K ++ [y], clean_line false x = x := by
            intro x hx
            rcases List.mem_append.mp hx with h1 | h1
            · exact hKfix x h1
            · rw [List.mem_singleton] at h1
              subst h1
              exact hfixy
          have hseg : seglist (K ++ [y]) := by
            apply seglist_append_last K y
              (fun x hx => (hK x hx).elim fun u hu => ⟨u, hu.1, hu.2.1⟩)
            intro hm
            exact hny (mem_dropLast_imp hm)
          have hne : ∀ x ∈ K ++ [y], x ≠ [] := by
            intro x hx
            rcases List.mem_append.mp hx with h1 | h1
            · obtain ⟨u, rfl, _, _⟩ := hK x h1
              simp
            · rw [List.mem_singleton] at h1
              subst h1
              exact hy0
          refine ⟨K ++ [y], ?_, hfix, ?_, ?_⟩
          · rw [hcc, hM]
            exact split_inclusive_flatten_eq _ hseg hne
          · rw [clean_lines_false, map_self _ _ hfix]
          · rw [hcc, hM]

/-! Evaluation lemmas for clean_file and the walk fold. -/

theorem find?_const_false (l : List Nat) : l.find? (fun _ => false) = none := by
  rw [List.find?_eq_none]
  intro x _
  simp

theorem clean_file_read_failed (create_ok : Bool) (write_fails : Nat → Bool) (flag : Bool) :
    clean_file none create_ok write_fails flag =
      { err := some LinemanFileError.FileNotOpened, truncated := false, written := [] } :=
  rfl

theorem clean_file_create_failed (s : List Char) (write_fails : Nat → Bool) (flag : Bool) :
    clean_file (some s) false write_fails flag =
      { err := some LinemanFileError.FileNotCleaned, truncated := false, written := [] } :=
  rfl

theorem clean_file_write_failed (s : List Char) (write_fails : Nat → Bool) (flag : Bool)
    (i : Nat)
    (h : (List.range (clean_lines (split_inclusive s) flag).length).find? write_fails =
      some i) :
    clean_file (some s) true write_fails flag =
      { err := some LinemanFileError.FileNotCleaned, truncated := true,
        written := (clean_lines (split_inclusive s) flag).take i } := by
  show (match (List.range (clean_lines (split_inclusive s) flag).length).find? write_fails with
    | some i =>
      ({ err := some LinemanFileError.FileNotCleaned, truncated := true,
         written := (clean_lines (split_inclusive s) flag).take i } : FileEffect)
    | none =>
      { err := none, truncated := true,
        written := clean_lines (split_inclusive s) flag }) = _
  rw [h]

theorem clean_file_ok (s : List Char) (write_fails : Nat → Bool) (flag : Bool)
    (h : (List.range (clean_lines (split_inclusive s) flag).length).find? write_fails =
      none) :
    clean_file (some s) true write_fails flag =
      { err := none, truncated := true,
        written := clean_lines (split_inclusive s) flag } := by
  show (match (List.range (clean_lines (split_inclusive s) flag).length).find? write_fails with
    | some i =>
      ({ err := some LinemanFileError.FileNotCleaned, truncated := true,
         written := (clean_lines (split_inclusive s) flag).take i } : FileEffect)
    | none =>
      { err := none, truncated := true,
        written := clean_lines (split_inclusive s) flag }) = _
  rw [h]

theorem process_fold (extensions : List (List Char)) (flag : Bool) (items : List WalkItem) :
    ∀ acc : Report,
      (items.foldl (process_item extensions flag) acc).walk_dir_errors =
        acc.walk_dir_errors + items.countP is_walk_error ∧
      (items.foldl (process_item extensions flag) acc).cleaned_file_paths.length +
        (items.foldl (process_item extensions flag) acc).skipped_file_paths.length =
        acc.cleaned_file_paths.length + acc.skipped_file_paths.length +
          items.countP (is_invoked extensions) := by
  induction items with
  | nil =>
    intro acc
    simp
  | cons it rest ih =>
    intro acc
    rw [List.foldl_cons, List.countP_cons, List.countP_cons]
    obtain ⟨ih1, ih2⟩ := ih (process_item extensions flag acc it)
    have hstep : (process_item extensions flag acc it).walk_dir_errors =
        acc.walk_dir_errors + (if is_walk_error it = true then 1 else 0) ∧
        (process_item extensions flag acc it).cleaned_file_paths.length +
          (process_item extensions flag acc it).skipped_file_paths.length =
          acc.cleaned_file_paths.length + acc.skipped_file_paths.length +
            (if is_invoked extensions it = true then 1 else 0) := by
      cases it with
      | walkDirError =>
        simp [process_item, is_walk_error, is_invoked]
      | entry is_file name read_result create_ok write_fails =>
        by_cases hinv : cleaner_invoked extensions is_file name = true
        · cases herr : (clean_file read_result create_ok write_fails flag).err with
          | none =>
            simp only [process_item, is_walk_error, is_invoked, hinv, herr, if_true,
              if_pos, List.length_append, List.length_singleton]
            refine ⟨by simp, ?_⟩
            omega
          | some e =>
            simp only [process_item, is_walk_error, is_invoked, hinv, herr, if_true,
              if_pos, List.length_append, List.length_singleton]
            refine ⟨by simp, ?_⟩
            omega
        · simp [process_item, is_walk_error, is_invoked, hinv]
    constructor
    · rw [ih1, hstep.1]
      omega
    · rw [ih2, hstep.2]
      omega

/-! Claim theorems. -/

/-- Claim C1 as stated is false: the Normalizer does not remove only
trailing spaces and tabs.  For the segment consisting of a, carriage
return, newline, the cleaned segment drops the carriage return, while the
claim requires it to be preserved in the cleaned content. -/
theorem c1_counterexample :
    clean_line true ['a', '\r', '\n'] ≠
      spec_trim_spaces_tabs (strip_final_newline ['a', '\r', '\n']) ++ ['\n'] := by
  decide

/-- Claim C1 (amended): for every segment and flag, clean_line removes from
the segment exactly its maximal trailing run of white-space characters in
the sense of Rust char::is_whitespace (space, tab, newline, carriage
return and the other Unicode white-space characters) — the removed suffix
is all white space and the kept content cannot end in a white-space
character — and then re-appends one newline exactly when the flag is set or
the segment originally ended with a newline. -/
theorem c1_amended (line : List Char) (flag : Bool) :
    (∃ w, line = trim_end line ++ w ∧ ∀ c ∈ w, rustIsWhitespace c = true) ∧
    (∀ c, (trim_end line).getLast? = some c → rustIsWhitespace c = false) ∧
    clean_line flag line =
      trim_end line ++ (if flag || ends_with_newline line then ['\n'] else []) := by
  refine ⟨trim_end_decomp line, trim_end_getLast line, ?_⟩
  by_cases h : (flag || ends_with_newline line) = true
  · simp [clean_line, h]
  · rw [Bool.not_eq_true] at h
    simp [clean_line, h]

/-- Claim C2: when the segment originally ended with a newline or the flag
is set, the normalized result is the trimmed content followed by exactly
one newline (the trimmed content itself never ends with a newline);
otherwise the result is the trimmed content with no trailing newline.  In
particular the final segment main() becomes main() plus a newline when the
flag is set and is unchanged when it is not. -/
theorem c2_newline_policy (line : List Char) (flag : Bool) :
    ((flag = true ∨ ends_with_newline line = true) →
      clean_line flag line = trim_end line ++ ['\n'] ∧
      (trim_end line).getLast? ≠ some '\n') ∧
    ((flag = false ∧ ends_with_newline line = false) →
      clean_line flag line = trim_end line ∧
      ends_with_newline (clean_line flag line) = false) ∧
    clean_lines [['m', 'a', 'i', 'n', '(', ')']] true =
      [['m', 'a', 'i', 'n', '(', ')', '\n']] ∧
    clean_lines [['m', 'a', 'i', 'n', '(', ')']] false =
      [['m', 'a', 'i', 'n', '(', ')']] := by
  have hnl : (trim_end line).getLast? ≠ some '\n' := by
    intro hc
    have hw := trim_end_getLast line '\n' hc
    rw [newline_whitespace] at hw
    exact Bool.noConfusion hw
  refine ⟨?_, ?_, by decide, by decide⟩
  · rintro (rfl | h)
    · exact ⟨clean_line_true_eq line, hnl⟩
    · exact ⟨clean_line_newline_eq flag line h, hnl⟩
  · rintro ⟨rfl, h⟩
    refine ⟨clean_line_false_no_newline line h, ?_⟩
    rw [clean_line_false_no_newline line h]
    exact ends_with_newline_false_of_trim_fixed _ (trim_end_idem line)

/-- Claim C4 as stated is false: for the file content a, newline, space —
a genuine split into newline-inclusive segments — cleaning with the flag
unset yields the segment list [a-newline, empty]; re-splitting the
concatenated output and cleaning again yields [a-newline], a different
list of segments. -/
theorem c4_counterexample :
    clean_lines (split_inclusive
        ((clean_lines (split_inclusive ['a', '\n', ' ']) false).flatten)) false ≠
      clean_lines (split_inclusive ['a', '\n', ' ']) false := by
  decide

/-- Claim C4 (amended): idempotence holds at the byte level rather than at
the segment-list level.  Re-splitting the concatenated output of
clean_lines and cleaning again with the same flag reproduces the same
bytes, and every re-split line is individually left unchanged by the
Normalizer; hence a file whose content is already fully normalized is
cleaned to byte-identical content. -/
theorem c4_amended (s : List Char) (flag : Bool) :
    cleaned_content (cleaned_content s flag) flag = cleaned_content s flag ∧
    ∀ x ∈ split_inclusive (cleaned_content s flag), clean_line flag x = x := by
  obtain ⟨L, hsplit, hfix, hclean, hflat⟩ := cleaned_content_resplit s flag
  constructor
  · show (clean_lines (split_inclusive (cleaned_content s flag)) flag).flatten =
      cleaned_content s flag
    rw [hsplit, hclean, hflat]
  · intro x hx
    rw [hsplit] at hx
    exact hfix x hx

/-- Claim C5 as stated is false: clean_file truncates and rewrites the file
even when the cleaned content is byte-identical to the original, as it is
for the already-normalized content a-newline. -/
theorem c5_counterexample :
    cleaned_content ['a', '\n'] true = ['a', '\n'] ∧
    (clean_file (some ['a', '\n']) true (fun _ => false) true).truncated = true ∧
    (clean_file (some ['a', '\n']) true (fun _ => false) true).written ≠ [] := by
  refine ⟨by decide, by decide, by decide⟩

/-- Claim C5 (amended): clean_file unconditionally truncates and rewrites
every file it can read and create; the bytes written are exactly the
cleaned content, so when nothing differs the file content ends up
byte-identical to the original even though a rewrite occurred. -/
theorem c5_amended (s : List Char) (flag : Bool) :
    (clean_file (some s) true (fun _ => false) flag).truncated = true ∧
    (clean_file (some s) true (fun _ => false) flag).written.flatten =
      cleaned_content s flag ∧
    (cleaned_content s flag = s →
      (clean_file (some s) true (fun _ => false) flag).written.flatten = s) := by
  have hcf := clean_file_ok s (fun _ => false) flag
    (find?_const_false (List.range (clean_lines (split_inclusive s) flag).length))
  rw [hcf]
  exact ⟨rfl, rfl, fun h => h⟩


/-- Claim C3: with the flag unset, clean_lines drops nothing (it is
exactly the per-line map) and the trailing-blank-segment count is
preserved; with the flag set, the mapped output decomposes as the kept
prefix followed by the dropped blank tail, the kept last segment (when one
exists) is non-blank, and that last segment is a non-empty trimmed line
followed by exactly one newline. -/
theorem c3_eof_blank_policy (lines : List (List Char)) :
    clean_lines lines false = lines.map (clean_line false) ∧
    trailing_blank_count (clean_lines lines false) = trailing_blank_count lines ∧
    (∃ dropped, lines.map (clean_line true) = clean_lines lines true ++ dropped ∧
      ∀ x ∈ dropped, is_blank x = true) ∧
    (∀ x, (clean_lines lines true).getLast? = some x →
      is_blank x = false ∧
      ∃ t line, line ∈ lines ∧ t = trim_end line ∧ x = t ++ ['\n'] ∧ t ≠ [] ∧
        (∀ c, t.getLast? = some c → rustIsWhitespace c = false)) := by
  refine ⟨clean_lines_false lines, ?_, ?_, ?_⟩
  · have hmap : (clean_lines lines false).map is_blank = lines.map is_blank := by
      rw [clean_lines_false, List.map_map]
      exact List.map_congr_left (fun x _ => is_blank_clean_line false x)
    unfold trailing_blank_count
    apply takeWhile_length_congr
    rw [List.map_reverse, List.map_reverse, hmap]
  · obtain ⟨dropped, hd, hdp⟩ := clean_lines_decomp lines true
    refine ⟨dropped, hd, fun x hx => ?_⟩
    have := hdp x hx
    simpa using this
  · intro x hx
    have hb := clean_lines_getLast lines true x hx
    rw [Bool.true_and] at hb
    refine ⟨hb, ?_⟩
    have hmem : x ∈ clean_lines lines true := by
      rw [getLast?_some_decomp (clean_lines lines true) x hx]
      exact List.mem_append_right _ (List.mem_singleton_self x)
    obtain ⟨line, hline, hxe⟩ := clean_lines_mem lines true x hmem
    refine ⟨trim_end line, line, hline, rfl, by rw [hxe, clean_line_true_eq], ?_,
      trim_end_getLast line⟩
    intro h0
    rw [hxe, clean_line_true_eq, h0] at hb
    have hbl : is_blank (([] : List Char) ++ ['\n']) = true := by decide
    rw [hbl] at hb
    exact Bool.noConfusion hb

/-- Claim C6 as stated is false: a file whose content is already normalized
(here a-newline with the flag set) is processed without any change, yet
main records it in the cleaned bucket, because every Ok result of
clean_file is pushed there. -/
theorem c6_counterexample :
    cleaned_content ['a', '\n'] true = ['a', '\n'] ∧
    (process_item [['t', 'x', 't']] true (Report.mk [] [] 0)
      (WalkItem.entry true ['a', '.', 't', 'x', 't'] (some ['a', '\n']) true
        (fun _ => false))).cleaned_file_paths = [['a', '.', 't', 'x', 't']] := by
  refine ⟨by decide, by decide⟩

/-- Claim C6 (amended): a processed file lands in the cleaned bucket
exactly when clean_file returns Ok — read, create and all writes succeeded —
regardless of whether any content changed; when clean_file fails the file
lands in the skipped bucket. -/
theorem c6_amended (extensions : List (List Char)) (flag : Bool) (r : Report)
    (name : List Char) (read_result : Option (List Char)) (create_ok : Bool)
    (write_fails : Nat → Bool)
    (h : cleaner_invoked extensions true name = true) :
    ((clean_file read_result create_ok write_fails flag).err = none →
      process_item extensions flag r
        (WalkItem.entry true name read_result create_ok write_fails) =
        { r with cleaned_file_paths := r.cleaned_file_paths ++ [name] }) ∧
    (∀ e, (clean_file read_result create_ok write_fails flag).err = some e →
      process_item extensions flag r
        (WalkItem.entry true name read_result create_ok write_fails) =
        { r with skipped_file_paths := r.skipped_file_paths ++ [name] }) := by
  constructor
  · intro he
    simp only [process_item]
    rw [if_pos h, he]
  · intro e he
    simp only [process_item]
    rw [if_pos h, he]

/-- Witness for c6_amended at a concrete already-clean file. -/
theorem c6_amended_witness :
    ((clean_file (some ['a', '\n']) true (fun _ => false) true).err = none →
      process_item [['t', 'x', 't']] true (Report.mk [] [] 0)
        (WalkItem.entry true ['a', '.', 't', 'x', 't'] (some ['a', '\n']) true
          (fun _ => false)) =
        { Report.mk [] [] 0 with cleaned_file_paths :=
            ([] : List (List Char)) ++ [['a', '.', 't', 'x', 't']] }) ∧
    (∀ e, (clean_file (some ['a', '\n']) true (fun _ => false) true).err = some e →
      process_item [['t', 'x', 't']] true (Report.mk [] [] 0)
        (WalkItem.entry true ['a', '.', 't', 'x', 't'] (some ['a', '\n']) true
          (fun _ => false)) =
        { Report.mk [] [] 0 with skipped_file_paths :=
            ([] : List (List Char)) ++ [['a', '.', 't', 'x', 't']] }) :=
  c6_amended [['t', 'x', 't']] true (Report.mk [] [] 0) ['a', '.', 't', 'x', 't']
    (some ['a', '\n']) true (fun _ => false) (by decide)


/-- Claim C7: clean_file fails with FileNotOpened exactly when the read
fails, fails with FileNotCleaned exactly when the file was read but the
create/truncate fails or some write within the chunk range fails (in which
case exactly the chunks before the first failing write were written), and
succeeds exactly when the read, the create and every write complete. -/
theorem c7_error_taxonomy (read_result : Option (List Char)) (create_ok : Bool)
    (write_fails : Nat → Bool) (flag : Bool) :
    ((clean_file read_result create_ok write_fails flag).err =
        some LinemanFileError.FileNotOpened ↔ read_result = none) ∧
    ((clean_file read_result create_ok write_fails flag).err =
        some LinemanFileError.FileNotCleaned ↔
      ∃ s, read_result = some s ∧ (create_ok = false ∨
        ∃ i, i < (clean_lines (split_inclusive s) flag).length ∧
          write_fails i = true)) ∧
    ((clean_file read_result create_ok write_fails flag).err = none ↔
      ∃ s, read_result = some s ∧ create_ok = true ∧
        ∀ i, i < (clean_lines (split_inclusive s) flag).length →
          write_fails i = false) ∧
    (∀ s i, read_result = some s → create_ok = true →
      (List.range (clean_lines (split_inclusive s) flag).length).find? write_fails =
        some i →
      (clean_file read_result create_ok write_fails flag).written =
        (clean_lines (split_inclusive s) flag).take i) := by
  cases read_result with
  | none =>
    rw [clean_file_read_failed]
    refine ⟨by simp, by simp, by simp, ?_⟩
    intro s i hs
    exact absurd hs (by simp)
  | some s =>
    cases create_ok with
    | false =>
      rw [clean_file_create_failed]
      refine ⟨by simp, ?_, by simp, ?_⟩
      · constructor
        · intro _
          exact ⟨s, rfl, Or.inl rfl⟩
        · intro _
          rfl
      · intro s' i hs hc
        exact absurd hc (by simp)
    | true =>
      cases hf : (List.range (clean_lines (split_inclusive s) flag).length).find?
          write_fails with
      | some j =>
        rw [clean_file_write_failed s write_fails flag j hf]
        have hjlt : j < (clean_lines (split_inclusive s) flag).length :=
          List.mem_range.mp (List.mem_of_find?_eq_some hf)
        have hjw : write_fails j = true := List.find?_some hf
        refine ⟨by simp, ?_, ?_, ?_⟩
        · constructor
          · intro _
            exact ⟨s, rfl, Or.inr ⟨j, hjlt, hjw⟩⟩
          · intro _
            rfl
        · constructor
          · intro h
            exact absurd h (by simp)
          · rintro ⟨s', hs', _, hall⟩
            injection hs' with hss
            subst hss
            exact absurd (hall j hjlt) (by simp [hjw])
        · intro s' i hs' _ hfind
          injection hs' with hss
          subst hss
          rw [hf] at hfind
          injection hfind with hji
          subst hji
          rfl
      | none =>
        rw [clean_file_ok s write_fails flag hf]
        have hall : ∀ i, i < (clean_lines (split_inclusive s) flag).length →
            write_fails i = false := by
          intro i hi
          have hni := List.find?_eq_none.mp hf i (List.mem_range.mpr hi)
          exact Bool.not_eq_true _ |>.mp hni
        refine ⟨by simp, ?_, ?_, ?_⟩
        · constructor
          · intro h
            exact absurd h (by simp)
          · rintro ⟨s', hs', hor⟩
            injection hs' with hss
            subst hss
            rcases hor with hc | ⟨i, hi, hw⟩
            · exact absurd hc (by simp)
            · rw [hall i hi] at hw
              exact absurd hw (by simp)
        · constructor
          · intro _
            exact ⟨s, rfl, rfl, hall⟩
          · intro _
            rfl
        · intro s' i hs' _ hfind
          injection hs' with hss
          subst hss
          rw [hf] at hfind
          exact absurd hfind (by simp)

/-- Claim C8: a regular file is handed to the File Cleaner iff its path has
an extension component equal, as a raw case-sensitive string, to some
configured extension; notes.txt matches the list [txt], notes.txtx does
not, and an entry whose name has no extension component is never
processed. -/
theorem c8_extension_filter (extensions : List (List Char)) (is_file : Bool)
    (name : List Char) :
    (cleaner_invoked extensions is_file name = true ↔
      is_file = true ∧ ∃ e, extension name = some e ∧ e ∈ extensions) ∧
    extension ['n', 'o', 't', 'e', 's', '.', 't', 'x', 't'] = some ['t', 'x', 't'] ∧
    cleaner_invoked [['t', 'x', 't']] true
      ['n', 'o', 't', 'e', 's', '.', 't', 'x', 't'] = true ∧
    cleaner_invoked [['t', 'x', 't']] true
      ['n', 'o', 't', 'e', 's', '.', 't', 'x', 't', 'x'] = false ∧
    (extension name = none → ∀ flag r read_result create_ok write_fails,
      process_item extensions flag r
        (WalkItem.entry true name read_result create_ok write_fails) = r) := by
  refine ⟨?_, by decide, by decide, by decide, ?_⟩
  · unfold cleaner_invoked
    cases is_file with
    | false => simp
    | true =>
      cases he : extension name with
      | none => simp [he]
      | some ext =>
        simp [he, file_is_in_extension_vector, List.any_eq_true, beq_iff_eq]
  · intro hnone flag r read_result create_ok write_fails
    have hcond : ¬ (cleaner_invoked extensions true name = true) := by
      simp [cleaner_invoked, hnone]
    simp only [process_item]
    rw [if_neg hcond]

/-- Claim C9: the run fails with InvalidRootPath, before any traversal,
exactly when the root is not a directory; otherwise it returns the report
successfully, with every traversal error counted in the walk-dir-errors
bucket and every invoked file accounted for in the cleaned or skipped
bucket, so per-file failures never abort the walk. -/
theorem c9_failure_propagation (root_is_dir : Bool) (extensions : List (List Char))
    (disable_eof_newline_normalization : Bool) (items : List WalkItem) :
    (root_is_dir = false →
      main root_is_dir extensions disable_eof_newline_normalization items =
        Except.error (LinemanApplicationError.InvalidRootPath
          ("The provided path is not a valid directory"))) ∧
    (root_is_dir = true →
      ∃ r, main root_is_dir extensions disable_eof_newline_normalization items =
          Except.ok r ∧
        r.walk_dir_errors = items.countP is_walk_error ∧
        r.cleaned_file_paths.length + r.skipped_file_paths.length =
          items.countP (is_invoked extensions)) := by
  constructor
  · intro h
    subst h
    rfl
  · intro h
    subst h
    refine ⟨items.foldl (process_item extensions (!disable_eof_newline_normalization))
      { cleaned_file_paths := [], skipped_file_paths := [], walk_dir_errors := 0 },
      rfl, ?_, ?_⟩
    · have h1 := (process_fold extensions (!disable_eof_newline_normalization) items
        { cleaned_file_paths := [], skipped_file_paths := [], walk_dir_errors := 0 }).1
      simpa using h1
    · have h2 := (process_fold extensions (!disable_eof_newline_normalization) items
        { cleaned_file_paths := [], skipped_file_paths := [], walk_dir_errors := 0 }).2
      simpa using h2

/-- Claim C10: when every segment of the input is blank (its trimmed
content is empty) and the flag is set, clean_lines returns the empty
sequence; cleaning such a file truncates it and writes nothing, leaving
zero bytes — in particular no trailing newline at all. -/
theorem c10_all_blank (lines : List (List Char)) (s : List Char)
    (hl : ∀ l ∈ lines, is_blank l = true)
    (hs : ∀ seg ∈ split_inclusive s, is_blank seg = true) :
    clean_lines lines true = [] ∧
    cleaned_content s true = [] ∧
    (clean_file (some s) true (fun _ => false) true).truncated = true ∧
    (clean_file (some s) true (fun _ => false) true).written = [] := by
  have hgen : ∀ (ls : List (List Char)), (∀ l ∈ ls, is_blank l = true) →
      clean_lines ls true = [] := by
    intro ls hb
    unfold clean_lines
    rw [List.reverse_eq_nil_iff, List.dropWhile_eq_nil_iff]
    intro x hx
    rw [List.mem_reverse] at hx
    obtain ⟨l, hl', heq⟩ := List.mem_map.mp hx
    subst heq
    show (true && is_blank (clean_line true l)) = true
    rw [Bool.true_and, is_blank_clean_line]
    exact hb l hl'
  have h2 : clean_lines (split_inclusive s) true = [] := hgen _ hs
  have hflat : cleaned_content s true = [] := by
    unfold cleaned_content
    rw [h2]
    rfl
  have hcf := clean_file_ok s (fun _ => false) true
    (find?_const_false (List.range (clean_lines (split_inclusive s) true).length))
  refine ⟨hgen lines hl, hflat, ?_, ?_⟩
  · rw [hcf]
  · rw [hcf]
    exact h2

/-- Witness for c10_all_blank at a concrete all-blank input. -/
theorem c10_all_blank_witness :
    clean_lines [[' ', '\n'], ['\n'], ['\t']] true = [] ∧
    cleaned_content ['\n', ' ', '\n'] true = [] ∧
    (clean_file (some ['\n', ' ', '\n']) true (fun _ => false) true).truncated = true ∧
    (clean_file (some ['\n', ' ', '\n']) true (fun _ => false) true).written = [] :=
  c10_all_blank [[' ', '\n'], ['\n'], ['\t']] ['\n', ' ', '\n'] (by decide) (by decide)


end Lineman
